import Mathlib

/-!
Shallow embedding of the chat-to-pdf backend (src/api/app), covering the
keyword index, hybrid fusion, text chunker, upload validation, the
background-indexing session lifecycle, the git-info collector and the
fallback answerer, together with theorems settling the frozen claims.
Scores that are Python floats are modelled as rationals; Python dicts keyed
by (doc_id, chunk_id) are modelled as association lists with dict update
semantics; Python's stable sort is modelled by a stable insertion sort.
-/

/-- Python str.lower() on a list of characters (per-character lowering). -/
def pyLower (s : List Char) : List Char := s.map Char.toLower

/-- Helper for Python str.split(): accumulate a current word (reversed). -/
def splitWSAux : List Char → List Char → List (List Char)
  | [], acc => if acc.isEmpty then [] else [acc.reverse]
  | c :: cs, acc =>
    if c.isWhitespace then
      if acc.isEmpty then splitWSAux cs [] else acc.reverse :: splitWSAux cs []
    else splitWSAux cs (c :: acc)

/-- Python str.split() with no arguments: split on whitespace runs, dropping
empty pieces. -/
def pySplit (s : List Char) : List (List Char) := splitWSAux s []

/-- Python str.strip(): drop leading and trailing whitespace. -/
def pyStrip (s : List Char) : List Char :=
  ((s.dropWhile Char.isWhitespace).reverse.dropWhile Char.isWhitespace).reverse

/-- Whether `pat` starts the list `s` (Python-style, by characters). -/
def strStarts : List Char → List Char → Bool
  | [], _ => true
  | _ :: _, [] => false
  | a :: as, b :: bs => a = b && strStarts as bs

/-- Python's `pat in s` substring test. -/
def strContains (pat : List Char) : List Char → Bool
  | [] => strStarts pat []
  | c :: cs => strStarts pat (c :: cs) || strContains pat cs

/-- Stable descending insertion by a score projection: the new element is
placed before the first element whose score it is at least equal to, so
elements with equal scores keep their original relative order (matching
Python's stable `sort(..., reverse=True)`). -/
def insertDescBy {α : Type} (f : α → ℚ) (x : α) : List α → List α
  | [] => [x]
  | y :: ys => if f y ≤ f x then x :: y :: ys else y :: insertDescBy f x ys

/-- Stable insertion sort by descending score, modelling Python's
`list.sort(key=..., reverse=True)`. -/
def sortDescBy {α : Type} (f : α → ℚ) : List α → List α
  | [] => []
  | x :: xs => insertDescBy f x (sortDescBy f xs)

/-- A list is sorted by descending `f`-score. -/
def SortedDescBy {α : Type} (f : α → ℚ) (l : List α) : Prop :=
  l.Pairwise (fun a b => f b ≤ f a)

theorem insertDescBy_perm {α : Type} (f : α → ℚ) (x : α) (l : List α) :
    (insertDescBy f x l).Perm (x :: l) := by
  induction l with
  | nil => simp [insertDescBy]
  | cons y ys ih =>
    by_cases h : f y ≤ f x
    · simp [insertDescBy, h]
    · simp only [insertDescBy, if_neg h]
      exact (ih.cons y).trans (List.Perm.swap x y ys)

theorem sortDescBy_perm {α : Type} (f : α → ℚ) (l : List α) :
    (sortDescBy f l).Perm l := by
  induction l with
  | nil => simp [sortDescBy]
  | cons x xs ih =>
    exact (insertDescBy_perm f x (sortDescBy f xs)).trans (ih.cons x)

theorem insertDescBy_sorted {α : Type} (f : α → ℚ) (x : α) (l : List α)
    (h : SortedDescBy f l) : SortedDescBy f (insertDescBy f x l) := by
  induction l with
  | nil => simp [insertDescBy, SortedDescBy]
  | cons y ys ih =>
    rcases List.pairwise_cons.mp h with ⟨hy, hys⟩
    by_cases hxy : f y ≤ f x
    · simp only [insertDescBy, if_pos hxy, SortedDescBy]
      refine List.pairwise_cons.mpr ⟨?_, h⟩
      intro b hb
      rcases List.mem_cons.mp hb with hb | hb
      · exact hb ▸ hxy
      · exact le_trans (hy b hb) hxy
    · simp only [insertDescBy, if_neg hxy, SortedDescBy]
      refine List.pairwise_cons.mpr ⟨?_, ih hys⟩
      intro b hb
      have hb' := (insertDescBy_perm f x ys).mem_iff.mp hb
      rcases List.mem_cons.mp hb' with hb' | hb'
      · exact hb' ▸ le_of_not_le hxy
      · exact hy b hb'

theorem sortDescBy_sorted {α : Type} (f : α → ℚ) (l : List α) :
    SortedDescBy f (sortDescBy f l) := by
  induction l with
  | nil => simp [sortDescBy, SortedDescBy]
  | cons x xs ih => exact insertDescBy_sorted f x _ ih

theorem sortDescBy_eq_self {α : Type} (f : α → ℚ) (l : List α)
    (h : SortedDescBy f l) : sortDescBy f l = l := by
  induction l with
  | nil => rfl
  | cons x xs ih =>
    rcases List.pairwise_cons.mp h with ⟨hx, hxs⟩
    rw [sortDescBy, ih hxs]
    cases xs with
    | nil => rfl
    | cons y ys =>
      have : f y ≤ f x := hx y (List.mem_cons_self y ys)
      simp [insertDescBy, this]

/-- Metadata attached to one indexed chunk (the fields the claims depend on:
`doc_id`, `chunk_id`, `page`, and the chunk text folded into the metadata). -/
structure ChunkMeta where
  doc_id : String
  chunk_id : Nat
  page : Nat
  text : String
deriving DecidableEq, Repr

/-- A scored search result, as returned by `VectorIndex.search` (score = raw
L2 distance) and `KeywordIndex.search` (score = term-match count). -/
structure Scored where
  score : ℚ
  metadata : ChunkMeta
deriving DecidableEq, Repr

/-- Number of query terms (with multiplicity in the split query) occurring as
substrings of the lower-cased document text; the inner loop of
`KeywordIndex.search` in src/api/app/retrieval.py. -/
def kwScore (terms : List (List Char)) (doc : ChunkMeta) : Nat :=
  (terms.filter (fun t => strContains t (pyLower doc.text.data))).length

/-- The `scored_docs` list of `KeywordIndex.search`: every stored document
whose score is positive, in storage order, paired with its score. -/
def kwScored (documents : List ChunkMeta) (query : String) : List Scored :=
  documents.filterMap (fun doc =>
    let s := kwScore (pySplit (pyLower query.data)) doc
    if 0 < s then some ⟨(s : ℚ), doc⟩ else none)

/-- `KeywordIndex.search(query, k)` from src/api/app/retrieval.py: score each
stored document by `kwScore`, drop zero scores, stable-sort descending and
truncate to `k`. -/
def kwSearch (documents : List ChunkMeta) (query : String) (k : Nat) :
    List Scored :=
  if documents.isEmpty then []
  else
    if (pySplit (pyLower query.data)).isEmpty then []
    else (sortDescBy Scored.score (kwScored documents query)).take k

/-- A fused entry of `HybridRetriever._combine_results`
(src/api/app/retrieval.py): combined score plus the raw per-method scores. -/
structure FusedResult where
  score : ℚ
  metadata : ChunkMeta
  semantic_score : ℚ
  keyword_score : ℚ
deriving DecidableEq, Repr

/-- Dictionary key used by the fusion map: `(doc_id, chunk_id)`. -/
abbrev Key := String × Nat

/-- The key of a metadata record. -/
def keyOfMeta (m : ChunkMeta) : Key := (m.doc_id, m.chunk_id)

/-- Lookup in the association-list model of the Python fusion dict. -/
def dictFind (m : List (Key × FusedResult)) (k : Key) : Option FusedResult :=
  (m.find? (fun p => decide (p.1 = k))).map Prod.snd

/-- Update/insert in the association-list model of the Python fusion dict:
an existing key is overwritten in place (dict semantics preserve insertion
order), a new key is appended. -/
def dictSet (m : List (Key × FusedResult)) (k : Key) (v : FusedResult) :
    List (Key × FusedResult) :=
  if m.any (fun p => decide (p.1 = k)) then
    m.map (fun p => if p.1 = k then (k, v) else p)
  else m ++ [(k, v)]

/-- Seeding step of `_combine_results`: a vector hit with raw L2 distance
`r.score` becomes an entry with `semantic_score = 1 / (1 + distance)` and
combined `score = semantic_score * 0.7`. -/
def seedStep (m : List (Key × FusedResult)) (r : Scored) :
    List (Key × FusedResult) :=
  dictSet m (keyOfMeta r.metadata)
    ⟨(1 / (1 + r.score)) * (7 / 10), r.metadata, 1 / (1 + r.score), 0⟩

/-- Keyword step of `_combine_results`: an existing entry is recombined as
`semantic_score * 0.7 + keyword_score * 0.3`; a new key is inserted with
`score = keyword_score * 0.3` and `semantic_score = 0`. -/
def kwStep (m : List (Key × FusedResult)) (r : Scored) :
    List (Key × FusedResult) :=
  match dictFind m (keyOfMeta r.metadata) with
  | some e =>
      dictSet m (keyOfMeta r.metadata)
        ⟨e.semantic_score * (7 / 10) + r.score * (3 / 10), e.metadata,
          e.semantic_score, r.score⟩
  | none =>
      dictSet m (keyOfMeta r.metadata)
        ⟨r.score * (3 / 10), r.metadata, 0, r.score⟩

/-- The fusion dict built by `_combine_results`: seed from the semantic hits,
then fold in the keyword hits. -/
def buildMap (semantic keyword : List Scored) : List (Key × FusedResult) :=
  keyword.foldl kwStep (semantic.foldl seedStep [])

/-- `HybridRetriever._combine_results(semantic, keyword, k)`: values of the
fusion dict in insertion order, stable-sorted by descending combined score,
truncated to `k`. -/
def combineResults (semantic keyword : List Scored) (k : Nat) :
    List FusedResult :=
  (sortDescBy FusedResult.score ((buildMap semantic keyword).map Prod.snd)).take k

/-- First lookup helper: the unique element of a list of scored results whose
metadata carries the given key. -/
def findByKey (l : List Scored) (k : Key) : Option Scored :=
  l.find? (fun r => decide (keyOfMeta r.metadata = k))

/-- A list of scored results has pairwise-distinct `(doc_id, chunk_id)` keys. -/
def NodupKeys (l : List Scored) : Prop :=
  (l.map (fun r => keyOfMeta r.metadata)).Nodup

theorem find?_map_set_hit (m : List (Key × FusedResult)) (k : Key)
    (v : FusedResult) (hp : ∃ p ∈ m, p.1 = k) :
    ((m.map (fun p => if p.1 = k then (k, v) else p)).find?
      (fun p => decide (p.1 = k))) = some (k, v) := by
  induction m with
  | nil => rcases hp with ⟨p, hpm, _⟩; cases hpm
  | cons q m ih =>
    by_cases hq : q.1 = k
    · simp [hq]
    · rcases hp with ⟨p, hpm, hpk⟩
      rcases List.mem_cons.mp hpm with rfl | hpm'
      · exact absurd hpk hq
      · simp only [List.map_cons, if_neg hq]
        rw [List.find?_cons_of_neg _ (by simpa using hq)]
        exact ih ⟨p, hpm', hpk⟩

theorem find?_map_set_miss (m : List (Key × FusedResult)) (k k' : Key)
    (v : FusedResult) (hne : k' ≠ k) :
    ((m.map (fun p => if p.1 = k then (k, v) else p)).find?
      (fun p => decide (p.1 = k'))) = m.find? (fun p => decide (p.1 = k')) := by
  induction m with
  | nil => rfl
  | cons q m ih =>
    by_cases hq : q.1 = k
    · have hq' : ¬ q.1 = k' := by
        rw [hq]; exact fun hc => hne hc.symm
      simp only [List.map_cons, if_pos hq]
      rw [List.find?_cons_of_neg _ (by simpa using fun hc : k = k' => hne hc.symm),
        List.find?_cons_of_neg _ (by simpa using hq'), ih]
    · simp only [List.map_cons, if_neg hq]
      by_cases hq' : q.1 = k'
      · rw [List.find?_cons_of_pos _ (by simpa using hq'),
          List.find?_cons_of_pos _ (by simpa using hq')]
      · rw [List.find?_cons_of_neg _ (by simpa using hq'),
          List.find?_cons_of_neg _ (by simpa using hq'), ih]

theorem dictFind_set_eq (m : List (Key × FusedResult)) (k : Key)
    (v : FusedResult) : dictFind (dictSet m k v) k = some v := by
  unfold dictSet
  by_cases h : m.any (fun p => decide (p.1 = k))
  · rw [if_pos h]
    rcases List.any_eq_true.mp h with ⟨p, hp, hpk⟩
    unfold dictFind
    rw [find?_map_set_hit m k v ⟨p, hp, of_decide_eq_true hpk⟩]
    rfl
  · rw [if_neg h]
    have hnone : m.find? (fun p => decide (p.1 = k)) = none := by
      rw [List.find?_eq_none]
      intro p hp hpk
      exact h (List.any_eq_true.mpr ⟨p, hp, hpk⟩)
    unfold dictFind
    rw [List.find?_append, hnone]
    simp [List.find?]

theorem dictFind_set_ne (m : List (Key × FusedResult)) (k k' : Key)
    (v : FusedResult) (hne : k' ≠ k) :
    dictFind (dictSet m k v) k' = dictFind m k' := by
  unfold dictSet
  by_cases h : m.any (fun p => decide (p.1 = k))
  · rw [if_pos h]
    unfold dictFind
    rw [find?_map_set_miss m k k' v hne]
  · rw [if_neg h]
    unfold dictFind
    rw [List.find?_append]
    have hone : List.find? (fun p => decide (p.1 = k')) [(k, v)] = none := by
      rw [List.find?_cons_of_neg _ (by simpa using fun hc : k = k' => hne hc.symm)]
      rfl
    rw [hone]
    cases List.find? (fun p => decide (p.1 = k')) m <;> rfl

/-- The entry `_combine_results` stores for a keyword hit `r`: combined with
an existing (semantic) entry when present, inserted fresh otherwise. -/
def kwCombine (o : Option FusedResult) (r : Scored) : FusedResult :=
  match o with
  | some e =>
      ⟨e.semantic_score * (7 / 10) + r.score * (3 / 10), e.metadata,
        e.semantic_score, r.score⟩
  | none => ⟨r.score * (3 / 10), r.metadata, 0, r.score⟩

theorem kwStep_eq (m : List (Key × FusedResult)) (r : Scored) :
    kwStep m r =
      dictSet m (keyOfMeta r.metadata)
        (kwCombine (dictFind m (keyOfMeta r.metadata)) r) := by
  unfold kwStep kwCombine
  cases dictFind m (keyOfMeta r.metadata) <;> rfl

theorem seedStep_frame (m : List (Key × FusedResult)) (r : Scored) (key : Key)
    (h : keyOfMeta r.metadata ≠ key) :
    dictFind (seedStep m r) key = dictFind m key :=
  dictFind_set_ne m _ key _ (Ne.symm h)

theorem kwStep_frame (m : List (Key × FusedResult)) (r : Scored) (key : Key)
    (h : keyOfMeta r.metadata ≠ key) :
    dictFind (kwStep m r) key = dictFind m key := by
  rw [kwStep_eq]
  exact dictFind_set_ne m _ key _ (Ne.symm h)

theorem foldl_seed_frame (L : List Scored) (key : Key)
    (hL : ∀ r ∈ L, keyOfMeta r.metadata ≠ key) :
    ∀ m, dictFind (L.foldl seedStep m) key = dictFind m key := by
  induction L with
  | nil => intro m; rfl
  | cons r rest ih =>
    intro m
    rw [List.foldl_cons,
      ih (fun x hx => hL x (List.mem_cons_of_mem r hx)) (seedStep m r),
      seedStep_frame m r key (hL r (List.mem_cons_self r rest))]

theorem foldl_kw_frame (L : List Scored) (key : Key)
    (hL : ∀ r ∈ L, keyOfMeta r.metadata ≠ key) :
    ∀ m, dictFind (L.foldl kwStep m) key = dictFind m key := by
  induction L with
  | nil => intro m; rfl
  | cons r rest ih =>
    intro m
    rw [List.foldl_cons,
      ih (fun x hx => hL x (List.mem_cons_of_mem r hx)) (kwStep m r),
      kwStep_frame m r key (hL r (List.mem_cons_self r rest))]

theorem foldl_seed_hit (sem : List Scored) (hnodup : NodupKeys sem)
    (s : Scored) (hs : s ∈ sem) :
    ∀ m, dictFind (sem.foldl seedStep m) (keyOfMeta s.metadata) =
      some ⟨(1 / (1 + s.score)) * (7 / 10), s.metadata, 1 / (1 + s.score), 0⟩ := by
  induction sem with
  | nil => cases hs
  | cons r rest ih =>
    intro m
    have hnr : NodupKeys rest := (List.nodup_cons.mp hnodup).2
    have hrk : keyOfMeta r.metadata ∉ rest.map (fun x => keyOfMeta x.metadata) :=
      (List.nodup_cons.mp hnodup).1
    by_cases hk : keyOfMeta r.metadata = keyOfMeta s.metadata
    · rw [hk] at hrk
      have hsr : s = r := by
        rcases List.mem_cons.mp hs with rfl | hs'
        · rfl
        · exact absurd (List.mem_map_of_mem (fun x => keyOfMeta x.metadata) hs') hrk
      subst hsr
      have hframe : ∀ x ∈ rest, keyOfMeta x.metadata ≠ keyOfMeta s.metadata := by
        intro x hx hc
        exact hrk (hc ▸ List.mem_map_of_mem (fun y => keyOfMeta y.metadata) hx)
      rw [List.foldl_cons, foldl_seed_frame rest (keyOfMeta s.metadata) hframe]
      unfold seedStep
      rw [hk]
      exact dictFind_set_eq m _ _
    · have hs' : s ∈ rest := by
        rcases List.mem_cons.mp hs with rfl | hs'
        · exact absurd rfl hk
        · exact hs'
      rw [List.foldl_cons]
      exact ih hnr hs' (seedStep m r)

theorem foldl_kw_hit (kw : List Scored) (hnodup : NodupKeys kw)
    (r : Scored) (hr : r ∈ kw) :
    ∀ m, dictFind (kw.foldl kwStep m) (keyOfMeta r.metadata) =
      some (kwCombine (dictFind m (keyOfMeta r.metadata)) r) := by
  induction kw with
  | nil => cases hr
  | cons q rest ih =>
    intro m
    have hnr : NodupKeys rest := (List.nodup_cons.mp hnodup).2
    have hqk : keyOfMeta q.metadata ∉ rest.map (fun x => keyOfMeta x.metadata) :=
      (List.nodup_cons.mp hnodup).1
    by_cases hk : keyOfMeta q.metadata = keyOfMeta r.metadata
    · rw [hk] at hqk
      have hrq : r = q := by
        rcases List.mem_cons.mp hr with rfl | hr'
        · rfl
        · exact absurd (List.mem_map_of_mem (fun x => keyOfMeta x.metadata) hr') hqk
      subst hrq
      have hframe : ∀ x ∈ rest, keyOfMeta x.metadata ≠ keyOfMeta r.metadata := by
        intro x hx hc
        exact hqk (hc ▸ List.mem_map_of_mem (fun y => keyOfMeta y.metadata) hx)
      rw [List.foldl_cons, foldl_kw_frame rest (keyOfMeta r.metadata) hframe,
        kwStep_eq]
      exact dictFind_set_eq m _ _
    · have hr' : r ∈ rest := by
        rcases List.mem_cons.mp hr with rfl | hr'
        · exact absurd rfl hk
        · exact hr'
      rw [List.foldl_cons, ih hnr hr' (kwStep m q),
        kwStep_frame m q (keyOfMeta r.metadata) hk]

theorem findByKey_some (l : List Scored) (k : Key) (s : Scored)
    (h : findByKey l k = some s) : s ∈ l ∧ keyOfMeta s.metadata = k := by
  unfold findByKey at h
  refine ⟨List.mem_of_find?_eq_some h, of_decide_eq_true ?_⟩
  exact List.find?_some (p := fun r : Scored => decide (keyOfMeta r.metadata = k)) h

theorem findByKey_none (l : List Scored) (k : Key)
    (h : findByKey l k = none) : ∀ r ∈ l, keyOfMeta r.metadata ≠ k := by
  intro r hr hc
  unfold findByKey at h
  have := List.find?_eq_none.mp h r hr
  exact this (decide_eq_true hc)

theorem buildMap_lookup_both (sem kw : List Scored) (key : Key)
    (hsem : NodupKeys sem) (hkw : NodupKeys kw) (s kr : Scored)
    (h1 : findByKey sem key = some s) (h2 : findByKey kw key = some kr) :
    dictFind (buildMap sem kw) key =
      some ⟨(1 / (1 + s.score)) * (7 / 10) + kr.score * (3 / 10), s.metadata,
        1 / (1 + s.score), kr.score⟩ := by
  rcases findByKey_some sem key s h1 with ⟨hsm, hskey⟩
  rcases findByKey_some kw key kr h2 with ⟨hkm, hkkey⟩
  unfold buildMap
  rw [← hkkey, foldl_kw_hit kw hkw kr hkm, hkkey, ← hskey,
    foldl_seed_hit sem hsem s hsm]
  rfl

theorem buildMap_lookup_semonly (sem kw : List Scored) (key : Key)
    (hsem : NodupKeys sem) (s : Scored)
    (h1 : findByKey sem key = some s) (h2 : findByKey kw key = none) :
    dictFind (buildMap sem kw) key =
      some ⟨(1 / (1 + s.score)) * (7 / 10), s.metadata, 1 / (1 + s.score), 0⟩ := by
  rcases findByKey_some sem key s h1 with ⟨hsm, hskey⟩
  unfold buildMap
  rw [foldl_kw_frame kw key (findByKey_none kw key h2), ← hskey,
    foldl_seed_hit sem hsem s hsm]

theorem buildMap_lookup_kwonly (sem kw : List Scored) (key : Key)
    (hkw : NodupKeys kw) (kr : Scored)
    (h1 : findByKey sem key = none) (h2 : findByKey kw key = some kr) :
    dictFind (buildMap sem kw) key =
      some ⟨kr.score * (3 / 10), kr.metadata, 0, kr.score⟩ := by
  rcases findByKey_some kw key kr h2 with ⟨hkm, hkkey⟩
  unfold buildMap
  rw [← hkkey, foldl_kw_hit kw hkw kr hkm, hkkey,
    foldl_seed_frame sem key (findByKey_none sem key h1)]
  rfl

theorem buildMap_lookup_neither (sem kw : List Scored) (key : Key)
    (h1 : findByKey sem key = none) (h2 : findByKey kw key = none) :
    dictFind (buildMap sem kw) key = none := by
  unfold buildMap
  rw [foldl_kw_frame kw key (findByKey_none kw key h2),
    foldl_seed_frame sem key (findByKey_none sem key h1)]
  rfl

/-- Invariant of the fusion dict: stored keys are pairwise distinct and every
entry is stored under the key of its own metadata. -/
def MapInv (m : List (Key × FusedResult)) : Prop :=
  (m.map Prod.fst).Nodup ∧ ∀ p ∈ m, p.1 = keyOfMeta p.2.metadata

theorem mapInv_dictSet (m : List (Key × FusedResult)) (k : Key)
    (v : FusedResult) (hm : MapInv m) (hv : keyOfMeta v.metadata = k) :
    MapInv (dictSet m k v) := by
  unfold dictSet
  by_cases h : m.any (fun p => decide (p.1 = k))
  · rw [if_pos h]
    constructor
    · have : (m.map (fun p => if p.1 = k then (k, v) else p)).map Prod.fst =
          m.map Prod.fst := by
        rw [List.map_map]
        apply List.map_congr_left
        intro p _
        by_cases hp : p.1 = k
        · simp [hp]
        · simp [hp]
      rw [this]
      exact hm.1
    · intro p hp
      rcases List.mem_map.mp hp with ⟨q, hq, hpq⟩
      by_cases hqk : q.1 = k
      · rw [← hpq]
        simp only [if_pos hqk]
        exact hv.symm
      · rw [← hpq]
        simp only [if_neg hqk]
        exact hm.2 q hq
  · rw [if_neg h]
    constructor
    · rw [List.map_append]
      apply List.Nodup.append hm.1 (by simp)
      intro a ha hb
      have hbk : a = k := by
        rcases List.mem_map.mp hb with ⟨q, hq, hpq⟩
        rcases List.mem_singleton.mp hq with rfl
        exact hpq.symm
      subst hbk
      rcases List.mem_map.mp ha with ⟨q, hq, hpq⟩
      have : decide (q.1 = a) = true := decide_eq_true hpq
      exact (List.any_eq_true.mpr ⟨q, hq, this⟩) |> h
    · intro p hp
      rcases List.mem_append.mp hp with hp' | hp'
      · exact hm.2 p hp'
      · rcases List.mem_singleton.mp hp' with rfl
        exact hv.symm

theorem mapInv_seedStep (m : List (Key × FusedResult)) (r : Scored)
    (hm : MapInv m) : MapInv (seedStep m r) :=
  mapInv_dictSet m _ _ hm rfl

theorem mapInv_kwStep (m : List (Key × FusedResult)) (r : Scored)
    (hm : MapInv m) : MapInv (kwStep m r) := by
  rw [kwStep_eq]
  apply mapInv_dictSet m _ _ hm
  unfold kwCombine
  cases hfind : dictFind m (keyOfMeta r.metadata) with
  | none => rfl
  | some e =>
    unfold dictFind at hfind
    rcases Option.map_eq_some'.mp hfind with ⟨p, hp, hpe⟩
    have hpm := List.mem_of_find?_eq_some hp
    have hpk : p.1 = keyOfMeta r.metadata := of_decide_eq_true
      (List.find?_some (p := fun q : Key × FusedResult => decide (q.1 = keyOfMeta r.metadata)) hp)
    have := hm.2 p hpm
    simp only
    rw [← hpe, ← this, hpk]

theorem mapInv_buildMap (sem kw : List Scored) : MapInv (buildMap sem kw) := by
  unfold buildMap
  have hseed : MapInv (sem.foldl seedStep []) := by
    have : ∀ (L : List Scored) (m), MapInv m → MapInv (L.foldl seedStep m) := by
      intro L
      induction L with
      | nil => intro m hm; exact hm
      | cons r rest ih =>
        intro m hm
        exact ih _ (mapInv_seedStep m r hm)
    exact this sem [] ⟨List.nodup_nil, by intro p hp; cases hp⟩
  have : ∀ (L : List Scored) (m), MapInv m → MapInv (L.foldl kwStep m) := by
    intro L
    induction L with
    | nil => intro m hm; exact hm
    | cons r rest ih =>
      intro m hm
      exact ih _ (mapInv_kwStep m r hm)
  exact this kw _ hseed

theorem values_pairwise_keys (m : List (Key × FusedResult)) (hm : MapInv m) :
    (m.map Prod.snd).Pairwise
      (fun a b => keyOfMeta a.metadata ≠ keyOfMeta b.metadata) := by
  have h1 : m.map Prod.fst = m.map (fun p => keyOfMeta p.2.metadata) :=
    List.map_congr_left hm.2
  have h2 : m.map (fun p => keyOfMeta p.2.metadata) =
      (m.map Prod.snd).map (fun a => keyOfMeta a.metadata) := by
    rw [List.map_map]; rfl
  have hnd : ((m.map Prod.snd).map (fun a => keyOfMeta a.metadata)).Nodup := by
    rw [← h2, ← h1]; exact hm.1
  rw [List.Nodup, List.pairwise_map] at hnd
  exact hnd

theorem kwScored_mem (documents : List ChunkMeta) (query : String)
    (r : Scored) (hr : r ∈ kwScored documents query) :
    r.metadata ∈ documents ∧
      r.score = (kwScore (pySplit (pyLower query.data)) r.metadata : ℚ) ∧
      1 ≤ kwScore (pySplit (pyLower query.data)) r.metadata := by
  unfold kwScored at hr
  rcases List.mem_filterMap.mp hr with ⟨doc, hdoc, heq⟩
  simp only at heq
  by_cases hpos : 0 < kwScore (pySplit (pyLower query.data)) doc
  · rw [if_pos hpos] at heq
    cases heq
    exact ⟨hdoc, rfl, hpos⟩
  · rw [if_neg hpos] at heq
    cases heq

theorem kwSearch_mem (documents : List ChunkMeta) (query : String) (k : Nat)
    (r : Scored) (hr : r ∈ kwSearch documents query k) :
    r.metadata ∈ documents ∧
      r.score = (kwScore (pySplit (pyLower query.data)) r.metadata : ℚ) ∧
      1 ≤ kwScore (pySplit (pyLower query.data)) r.metadata ∧
      kwScore (pySplit (pyLower query.data)) r.metadata ≤
        (pySplit (pyLower query.data)).length := by
  unfold kwSearch at hr
  by_cases h1 : documents.isEmpty
  · rw [if_pos h1] at hr; cases hr
  · rw [if_neg h1] at hr
    by_cases h2 : (pySplit (pyLower query.data)).isEmpty
    · rw [if_pos h2] at hr; cases hr
    · rw [if_neg h2] at hr
      have hr' : r ∈ sortDescBy Scored.score (kwScored documents query) :=
        List.mem_of_mem_take hr
      have hr'' : r ∈ kwScored documents query :=
        (sortDescBy_perm Scored.score _).mem_iff.mp hr'
      rcases kwScored_mem documents query r hr'' with ⟨hd, hs, hpos⟩
      exact ⟨hd, hs, hpos, List.length_filter_le _ _⟩

theorem combineResults_length_le (sem kw : List Scored) (k : Nat) :
    (combineResults sem kw k).length ≤ k := by
  unfold combineResults
  rw [List.length_take]
  exact min_le_left _ _

theorem combineResults_sorted (sem kw : List Scored) (k : Nat) :
    SortedDescBy FusedResult.score (combineResults sem kw k) := by
  unfold combineResults SortedDescBy
  exact List.Pairwise.sublist (List.take_sublist _ _)
    (sortDescBy_sorted FusedResult.score _)

theorem combineResults_pairwise_keys (sem kw : List Scored) (k : Nat) :
    (combineResults sem kw k).Pairwise
      (fun a b => keyOfMeta a.metadata ≠ keyOfMeta b.metadata) := by
  have hvals := values_pairwise_keys (buildMap sem kw) (mapInv_buildMap sem kw)
  have hsorted := (List.Perm.pairwise_iff
    (R := fun (a b : FusedResult) => keyOfMeta a.metadata ≠ keyOfMeta b.metadata)
    (fun h hc => h hc.symm)
    (sortDescBy_perm FusedResult.score ((buildMap sem kw).map Prod.snd))).mpr hvals
  unfold combineResults
  exact List.Pairwise.sublist (List.take_sublist _ _) hsorted

/-- Concrete fixtures used by witnesses: two chunks from two documents. -/
def metaA : ChunkMeta := ⟨"a.pdf", 0, 1, "alpha beta"⟩

/-- Second fixture chunk. -/
def metaB : ChunkMeta := ⟨"b.pdf", 1, 1, "gamma"⟩

/-- Fixture semantic hits (a single vector hit at L2 distance 1). -/
def semFixture : List Scored := [⟨1, metaA⟩]

/-- Fixture keyword hits (one overlapping the vector hit, one fresh). -/
def kwFixture : List Scored := [⟨2, metaA⟩, ⟨1, metaB⟩]

/-- C6: `_combine_results` keys every hit by `(doc_id, chunk_id)`, so no two
returned results share that pair; a chunk hit by both methods gets score
`semantic_similarity * 0.7 + keyword_score * 0.3` with
`semantic_similarity = 1 / (1 + L2 distance)`; a semantic-only chunk gets
`semantic_similarity * 0.7`, a keyword-only chunk gets `keyword_score * 0.3`;
and the returned list is sorted by descending fused score and truncated
to `k`. -/
theorem hybrid_fusion_spec (sem kw : List Scored) (k : Nat)
    (hsem : NodupKeys sem) (hkw : NodupKeys kw) :
    (combineResults sem kw k).length ≤ k ∧
    SortedDescBy FusedResult.score (combineResults sem kw k) ∧
    (combineResults sem kw k).Pairwise
      (fun a b => keyOfMeta a.metadata ≠ keyOfMeta b.metadata) ∧
    (∀ key s kr, findByKey sem key = some s → findByKey kw key = some kr →
      dictFind (buildMap sem kw) key =
        some ⟨(1 / (1 + s.score)) * (7 / 10) + kr.score * (3 / 10), s.metadata,
          1 / (1 + s.score), kr.score⟩) ∧
    (∀ key s, findByKey sem key = some s → findByKey kw key = none →
      dictFind (buildMap sem kw) key =
        some ⟨(1 / (1 + s.score)) * (7 / 10), s.metadata,
          1 / (1 + s.score), 0⟩) ∧
    (∀ key kr, findByKey sem key = none → findByKey kw key = some kr →
      dictFind (buildMap sem kw) key =
        some ⟨kr.score * (3 / 10), kr.metadata, 0, kr.score⟩) :=
  ⟨combineResults_length_le sem kw k,
   combineResults_sorted sem kw k,
   combineResults_pairwise_keys sem kw k,
   fun key s kr h1 h2 => buildMap_lookup_both sem kw key hsem hkw s kr h1 h2,
   fun key s h1 h2 => buildMap_lookup_semonly sem kw key hsem s h1 h2,
   fun key kr h1 h2 => buildMap_lookup_kwonly sem kw key hkw kr h1 h2⟩

/-- Witness for C6 at a concrete input: both hypotheses hold and the fused
entry for the chunk hit by both methods carries the blended score. -/
theorem hybrid_fusion_spec_witness :
    (combineResults semFixture kwFixture 2).length ≤ 2 ∧
    SortedDescBy FusedResult.score (combineResults semFixture kwFixture 2) ∧
    dictFind (buildMap semFixture kwFixture) ("a.pdf", 0) =
      some ⟨(1 / (1 + (1 : ℚ))) * (7 / 10) + (2 : ℚ) * (3 / 10), metaA,
        1 / (1 + (1 : ℚ)), 2⟩ := by
  have h := hybrid_fusion_spec semFixture kwFixture 2
    (by unfold NodupKeys; decide) (by unfold NodupKeys; decide)
  exact ⟨h.1, h.2.1, h.2.2.2.1 ("a.pdf", 0) ⟨1, metaA⟩ ⟨2, metaA⟩ rfl rfl⟩

/-- C2 counterexample: with no semantic hits, a chunk matched by two keyword
terms gets fused score `2 * 0.3 = 0.6`, exceeding the claimed `0.3` cap for
keyword-only hits. -/
theorem keyword_only_cap_counterexample :
    (combineResults []
        (kwSearch [⟨"d.pdf", 0, 1, "alpha beta"⟩] "alpha beta" 5) 5).map
      FusedResult.score = [((2 : ℕ) : ℚ) * (3 / 10)] ∧
    ((2 : ℕ) : ℚ) * (3 / 10) = 3 / 5 ∧
    ¬ (((2 : ℕ) : ℚ) * (3 / 10) ≤ 3 / 10) :=
  ⟨rfl, by norm_num, by norm_num⟩

/-- C2 amended: a semantic-only hit's fused score never exceeds 0.7 (for
non-negative L2 distances); a keyword-only hit's fused score equals
`keyword_score * 0.3`, which is bounded by `0.3` times the number of query
terms and exceeds `0.3` whenever more than one term matches. -/
theorem fused_score_caps_amended (sem : List Scored)
    (documents : List ChunkMeta) (q : String) (k : Nat)
    (hsem : NodupKeys sem) (hdist : ∀ r ∈ sem, 0 ≤ r.score)
    (hkw : NodupKeys (kwSearch documents q k)) :
    (∀ key s, findByKey sem key = some s →
      findByKey (kwSearch documents q k) key = none →
      ∀ e, dictFind (buildMap sem (kwSearch documents q k)) key = some e →
        e.score ≤ 7 / 10) ∧
    (∀ key kr, findByKey sem key = none →
      findByKey (kwSearch documents q k) key = some kr →
      ∀ e, dictFind (buildMap sem (kwSearch documents q k)) key = some e →
        e.score = kr.score * (3 / 10) ∧
        e.score ≤ ((pySplit (pyLower q.data)).length : ℚ) * (3 / 10) ∧
        (1 < kr.score → 3 / 10 < e.score)) := by
  constructor
  · intro key s h1 h2 e he
    rw [buildMap_lookup_semonly sem _ key hsem s h1 h2] at he
    cases he
    have hs0 : 0 ≤ s.score := hdist s (findByKey_some sem key s h1).1
    have hpos : (0 : ℚ) < 1 + s.score := by linarith
    have hle1 : 1 / (1 + s.score) ≤ 1 := by
      rw [div_le_one hpos]; linarith
    have hnn : (0 : ℚ) ≤ 1 / (1 + s.score) := by positivity
    simp only
    nlinarith
  · intro key kr h1 h2 e he
    rw [buildMap_lookup_kwonly sem _ key hkw kr h1 h2] at he
    cases he
    have hkr := kwSearch_mem documents q k kr
      (findByKey_some (kwSearch documents q k) key kr h2).1
    rcases hkr with ⟨-, hscore, hpos, hbound⟩
    refine ⟨rfl, ?_, ?_⟩
    · simp only
      have : kr.score ≤ ((pySplit (pyLower q.data)).length : ℚ) := by
        rw [hscore]
        exact_mod_cast hbound
      nlinarith
    · intro hgt
      simp only
      nlinarith

/-- Witness for C2's amended theorem at a concrete input: no semantic hits,
one keyword-only hit, whose fused score is `keyword_score * 0.3`. -/
theorem fused_score_caps_amended_witness :
    (FusedResult.mk (((2 : ℕ) : ℚ) * (3 / 10)) ⟨"d.pdf", 0, 1, "alpha beta"⟩ 0
        ((2 : ℕ) : ℚ)).score = ((2 : ℕ) : ℚ) * (3 / 10) ∧
    (FusedResult.mk (((2 : ℕ) : ℚ) * (3 / 10)) ⟨"d.pdf", 0, 1, "alpha beta"⟩ 0
        ((2 : ℕ) : ℚ)).score ≤
      ((pySplit (pyLower ("alpha beta").data)).length : ℚ) * (3 / 10) ∧
    (1 < ((2 : ℕ) : ℚ) →
      3 / 10 < (FusedResult.mk (((2 : ℕ) : ℚ) * (3 / 10))
        ⟨"d.pdf", 0, 1, "alpha beta"⟩ 0 ((2 : ℕ) : ℚ)).score) := by
  have h := fused_score_caps_amended [] [⟨"d.pdf", 0, 1, "alpha beta"⟩]
    "alpha beta" 5 (by unfold NodupKeys; decide)
    (by intro r hr; cases hr) (by unfold NodupKeys; decide)
  exact h.2 ("d.pdf", 0) ⟨((2 : ℕ) : ℚ), ⟨"d.pdf", 0, 1, "alpha beta"⟩⟩ rfl rfl
    (FusedResult.mk (((2 : ℕ) : ℚ) * (3 / 10)) ⟨"d.pdf", 0, 1, "alpha beta"⟩ 0
      ((2 : ℕ) : ℚ)) rfl

/-- The score C3 claims: the number of DISTINCT query terms occurring as
substrings of the lower-cased document text (stated from the claim's words,
for comparison with the source's `kwScore`). -/
def kwScoreDistinct (terms : List (List Char)) (doc : ChunkMeta) : Nat :=
  (terms.dedup.filter (fun t => strContains t (pyLower doc.text.data))).length

/-- C3 counterexample: for the query `"a a"` (the same term twice) against a
document containing `"a"`, the code scores 2 — each occurrence in the split
query list counts — while the claimed distinct-term count is 1. -/
theorem keyword_distinct_count_counterexample :
    (kwSearch [⟨"d.pdf", 0, 1, "abc"⟩] "a a" 5).map Scored.score =
      [((2 : ℕ) : ℚ)] ∧
    kwScoreDistinct (pySplit (pyLower ("a a").data)) ⟨"d.pdf", 0, 1, "abc"⟩ = 1 ∧
    ((2 : ℕ) : ℚ) ≠ ((1 : ℕ) : ℚ) :=
  ⟨rfl, by decide, by norm_num⟩

/-- C3 amended: `KeywordIndex.search` lower-cases and whitespace-splits the
query; each returned document's score is the number of query terms counted
with multiplicity in the split query (not the number of distinct terms) that
occur as substrings of the lower-cased document text; zero-scoring documents
are excluded, every positively-scoring document appears in the pre-truncation
list, results are sorted by descending score and truncated to `k`, and an
empty query or empty index yields an empty result. -/
theorem keyword_search_amended (documents : List ChunkMeta) (q : String)
    (k : Nat) :
    (documents = [] → kwSearch documents q k = []) ∧
    (pySplit (pyLower q.data) = [] → kwSearch documents q k = []) ∧
    (∀ r ∈ kwSearch documents q k,
      r.metadata ∈ documents ∧
      r.score = (kwScore (pySplit (pyLower q.data)) r.metadata : ℚ) ∧
      1 ≤ kwScore (pySplit (pyLower q.data)) r.metadata) ∧
    SortedDescBy Scored.score (kwSearch documents q k) ∧
    (kwSearch documents q k).length ≤ k ∧
    (∀ d ∈ documents, 1 ≤ kwScore (pySplit (pyLower q.data)) d →
      ∃ r, r ∈ sortDescBy Scored.score (kwScored documents q) ∧
        r.metadata = d ∧
        r.score = (kwScore (pySplit (pyLower q.data)) d : ℚ)) := by
  refine ⟨?_, ?_, ?_, ?_, ?_, ?_⟩
  · intro h
    subst h
    rfl
  · intro h
    unfold kwSearch
    rw [h]
    by_cases h1 : documents.isEmpty
    · rw [if_pos h1]
    · rw [if_neg h1]
      rfl
  · intro r hr
    rcases kwSearch_mem documents q k r hr with ⟨hd, hs, hpos, -⟩
    exact ⟨hd, hs, hpos⟩
  · unfold kwSearch
    by_cases h1 : documents.isEmpty
    · rw [if_pos h1]
      exact List.Pairwise.nil
    · rw [if_neg h1]
      by_cases h2 : (pySplit (pyLower q.data)).isEmpty
      · rw [if_pos h2]
        exact List.Pairwise.nil
      · rw [if_neg h2]
        exact List.Pairwise.sublist (List.take_sublist _ _)
          (sortDescBy_sorted Scored.score _)
  · unfold kwSearch
    by_cases h1 : documents.isEmpty
    · rw [if_pos h1]
      exact Nat.zero_le k
    · rw [if_neg h1]
      by_cases h2 : (pySplit (pyLower q.data)).isEmpty
      · rw [if_pos h2]
        exact Nat.zero_le k
      · rw [if_neg h2]
        rw [List.length_take]
        exact min_le_left _ _
  · intro d hd hscore
    refine ⟨⟨(kwScore (pySplit (pyLower q.data)) d : ℚ), d⟩, ?_, rfl, rfl⟩
    apply (sortDescBy_perm Scored.score (kwScored documents q)).mem_iff.mpr
    apply List.mem_filterMap.mpr
    exact ⟨d, hd, by simp only [if_pos (Nat.lt_of_lt_of_le Nat.zero_lt_one hscore)]⟩

/-- Witness for C3's amended theorem: a concrete document matching one query
term appears in the pre-truncation scored list with score 1. -/
theorem keyword_search_amended_witness :
    ∃ r, r ∈ sortDescBy Scored.score (kwScored [metaA] "beta") ∧
      r.metadata = metaA ∧
      r.score = (kwScore (pySplit (pyLower ("beta").data)) metaA : ℚ) :=
  (keyword_search_amended [metaA] "beta" 5).2.2.2.2.2 metaA
    (List.mem_singleton.mpr rfl) (by decide)

/-- The first (index, result) pair of maximal score in a list of indexed
results; ties keep the earliest. -/
def argmaxScore : List (Nat × FusedResult) → Option (Nat × FusedResult)
  | [] => none
  | x :: xs =>
    match argmaxScore xs with
    | none => some x
    | some y => if x.2.score < y.2.score then some y else some x

/-- The index of the highest-scoring chunk of document `d` among the indexed
results. -/
def bestIdxForDoc (er : List (Nat × FusedResult)) (d : String) : Option Nat :=
  (argmaxScore (er.filter (fun p => decide (p.2.metadata.doc_id = d)))).map
    Prod.fst

/-- Modelled from the spec's document-diversity selection pass (step 5 of the
query handler in the spec): group results by `doc_id` and take each
document's single highest-scoring chunk first, fill the remaining slots up to
a total of 5 with the next-highest-scoring chunks not already selected, then
re-sort the combined selection by descending score and keep the top 3. -/
def specDiversitySelect (results : List FusedResult) : List FusedResult :=
  let er := results.enum
  let firstPicks := er.filter
    (fun p => decide (bestIdxForDoc er p.2.metadata.doc_id = some p.1))
  let rest := er.filter
    (fun p => ! decide (bestIdxForDoc er p.2.metadata.doc_id = some p.1))
  let fill := (sortDescBy (fun p => p.2.score) rest).take (5 - firstPicks.length)
  let sel := (firstPicks ++ fill).map Prod.fst
  (sortDescBy FusedResult.score
    ((er.filter (fun p => sel.contains p.1)).map Prod.snd)).take 3

/-- The context set of the query handler in src/api/app/main.py: the top 3
search results, used both for the grounding-prompt excerpts (line 500) and
for the returned citations (line 543). -/
def queryContextSet (results : List FusedResult) : List FusedResult :=
  results.take 3

theorem filter_length_split {α : Type} (l : List α) (p : α → Bool) :
    (l.filter p).length + (l.filter (fun a => ! p a)).length = l.length := by
  induction l with
  | nil => rfl
  | cons x xs ih =>
    rw [List.filter_cons, List.filter_cons]
    by_cases hx : p x
    · rw [if_pos hx, if_neg (by rw [hx]; exact Bool.false_ne_true)]
      rw [List.length_cons, List.length_cons, Nat.succ_add, ih]
    · have hx' : p x = false := Bool.not_eq_true _ |>.mp hx
      rw [if_neg hx, if_pos (by rw [hx']; rfl)]
      rw [List.length_cons, List.length_cons, Nat.add_succ, ih]

/-- C1: for any result list of at most 5 hits sorted by descending score
(the shape `HybridRetriever.search(..., k=5)` returns), the spec's
document-diversity selection pass selects every result (one best chunk per
document plus a fill up to 5 covers everything), so its re-sorted top 3 is
exactly the handler's context set `search_results[:3]`, which is used both
for the grounding prompt and for the citations. -/
theorem query_context_diversity (results : List FusedResult)
    (hsorted : SortedDescBy FusedResult.score results)
    (hlen : results.length ≤ 5) :
    specDiversitySelect results = queryContextSet results := by
  have hsplit := filter_length_split results.enum
    (fun p => decide (bestIdxForDoc results.enum p.2.metadata.doc_id = some p.1))
  have hfp_le := List.length_filter_le
    (fun p => decide (bestIdxForDoc results.enum p.2.metadata.doc_id = some p.1))
    results.enum
  have helen : results.enum.length = results.length := List.enum_length
  have hrest_le :
      (results.enum.filter (fun p =>
        ! decide (bestIdxForDoc results.enum p.2.metadata.doc_id = some p.1))).length ≤
      5 - (results.enum.filter (fun p =>
        decide (bestIdxForDoc results.enum p.2.metadata.doc_id = some p.1))).length := by
    omega
  have hfill :
      (sortDescBy (fun p : Nat × FusedResult => p.2.score)
        (results.enum.filter (fun p =>
          ! decide (bestIdxForDoc results.enum p.2.metadata.doc_id = some p.1)))).take
        (5 - (results.enum.filter (fun p =>
          decide (bestIdxForDoc results.enum p.2.metadata.doc_id = some p.1))).length) =
      sortDescBy (fun p : Nat × FusedResult => p.2.score)
        (results.enum.filter (fun p =>
          ! decide (bestIdxForDoc results.enum p.2.metadata.doc_id = some p.1))) := by
    apply List.take_of_length_le
    rw [(sortDescBy_perm (fun p : Nat × FusedResult => p.2.score)
      (results.enum.filter (fun p =>
        ! decide (bestIdxForDoc results.enum p.2.metadata.doc_id = some p.1)))).length_eq]
    exact hrest_le
  have hmem : ∀ p ∈ results.enum,
      (((results.enum.filter (fun p =>
          decide (bestIdxForDoc results.enum p.2.metadata.doc_id = some p.1))) ++
        sortDescBy (fun p : Nat × FusedResult => p.2.score)
          (results.enum.filter (fun p =>
            ! decide (bestIdxForDoc results.enum p.2.metadata.doc_id = some p.1)))).map
        Prod.fst).contains p.1 = true := by
    intro p hp
    apply List.elem_eq_true_of_mem
    apply List.mem_map_of_mem Prod.fst
    by_cases hP : decide (bestIdxForDoc results.enum p.2.metadata.doc_id = some p.1) = true
    · exact List.mem_append_left _ (List.mem_filter.mpr ⟨hp, hP⟩)
    · apply List.mem_append_right
      apply (sortDescBy_perm (fun p : Nat × FusedResult => p.2.score)
        (results.enum.filter (fun p =>
          ! decide (bestIdxForDoc results.enum p.2.metadata.doc_id = some p.1)))).mem_iff.mpr
      apply List.mem_filter.mpr
      exact ⟨hp, by simp [hP]⟩
  show
    (sortDescBy FusedResult.score
      ((results.enum.filter (fun p =>
        (((results.enum.filter (fun p =>
            decide (bestIdxForDoc results.enum p.2.metadata.doc_id = some p.1))) ++
          ((sortDescBy (fun p : Nat × FusedResult => p.2.score)
            (results.enum.filter (fun p =>
              ! decide (bestIdxForDoc results.enum p.2.metadata.doc_id = some p.1)))).take
            (5 - (results.enum.filter (fun p =>
              decide (bestIdxForDoc results.enum p.2.metadata.doc_id =
                some p.1))).length))).map
          Prod.fst).contains p.1)).map Prod.snd)).take 3 = results.take 3
  rw [hfill, List.filter_eq_self.mpr hmem, List.enum_map_snd,
    sortDescBy_eq_self FusedResult.score results hsorted]

/-- Fixture result list for the C1 witness: three results from two documents,
sorted by strictly descending score. -/
def resultsFixture : List FusedResult :=
  [⟨7 / 10, metaA, 1, 0⟩, ⟨3 / 5, metaB, 0, 2⟩, ⟨3 / 10, ⟨"a.pdf", 2, 1, "x"⟩, 0, 1⟩]

/-- Witness for C1 at a concrete sorted input of length 3. -/
theorem query_context_diversity_witness :
    specDiversitySelect resultsFixture = queryContextSet resultsFixture :=
  query_context_diversity resultsFixture
    (by unfold SortedDescBy resultsFixture
        refine List.Pairwise.cons ?_ (List.Pairwise.cons ?_ ?_)
        · intro b hb
          rcases List.mem_cons.mp hb with rfl | hb
          · norm_num
          · rcases List.mem_singleton.mp hb with rfl
            norm_num
        · intro b hb
          rcases List.mem_singleton.mp hb with rfl
          norm_num
        · exact List.pairwise_singleton _ _)
    (by norm_num [resultsFixture])

/-- One chunk produced by `chunk_text`: decoded text and its token count. -/
structure Chunk where
  text : String
  token_count : Nat
deriving DecidableEq, Repr

/-- Python `int()` applied to a rational: truncation toward zero. -/
def pyInt (q : ℚ) : Int := if q < 0 then -⌊-q⌋ else ⌊q⌋

/-- Python's falsy-or-blank test `not text or not text.strip()`. -/
def pyBlank (text : String) : Bool :=
  text.data.isEmpty || (pyStrip text.data).isEmpty

theorem pyStrip_eq_nil_iff (l : List Char) :
    pyStrip l = [] ↔ ∀ c ∈ l, c.isWhitespace := by
  unfold pyStrip
  rw [List.reverse_eq_nil_iff, List.dropWhile_eq_nil_iff]
  constructor
  · intro h c hc
    by_cases hmem : c ∈ l.dropWhile Char.isWhitespace
    · exact h c (List.mem_reverse.mpr hmem)
    · have hsplit := List.takeWhile_append_dropWhile
        (p := Char.isWhitespace) (l := l)
      rw [← hsplit] at hc
      rcases List.mem_append.mp hc with h1 | h1
      · exact List.mem_takeWhile_imp h1
      · exact absurd h1 hmem
  · intro h c hc
    exact h c ((List.dropWhile_sublist Char.isWhitespace).subset
      (List.mem_reverse.mp hc))

theorem pyBlank_iff (text : String) :
    pyBlank text = true ↔ text.data.all Char.isWhitespace := by
  unfold pyBlank
  rw [Bool.or_eq_true, List.isEmpty_iff, List.isEmpty_iff, List.all_eq_true,
    pyStrip_eq_nil_iff]
  constructor
  · intro h
    rcases h with h | h
    · intro c hc
      rw [h] at hc
      cases hc
    · intro c hc
      exact h c hc
  · intro h
    exact Or.inr h

/-- The token window loop of `chunk_text` (src/api/app/retrieval.py, the
`while start < len(tokens)` loop), with explicit fuel; `none` models the loop
still running when the fuel is exhausted. -/
def chunkLoop (decode : List Nat → String) (tokens : List Nat)
    (maxTokens overlapTokens : Nat) : Nat → Nat → Option (List Chunk)
  | 0, start => if start < tokens.length then none else some []
  | fuel + 1, start =>
    if start < tokens.length then
      let e := min (start + maxTokens) tokens.length
      let chunkToks := (tokens.drop start).take maxTokens
      if e < tokens.length then
        (chunkLoop decode tokens maxTokens overlapTokens fuel
          (e - overlapTokens)).map
          (fun rest => ⟨decode chunkToks, chunkToks.length⟩ :: rest)
      else some [⟨decode chunkToks, chunkToks.length⟩]
    else some []

/-- `chunk_text(text, max_tokens, overlap_pct)` from src/api/app/retrieval.py,
parametrized by the tokenizer's encode/decode functions. The loop gets
`tokens.length` fuel, which suffices whenever the window start advances by at
least one token per iteration; `none` models non-termination. (Modelled for
`overlap_pct ≥ 0`; `Int.toNat` clamps a negative overlap, which Python would
instead treat as a negative slice offset.) -/
def chunk_text (encode : String → List Nat) (decode : List Nat → String)
    (text : String) (maxTokens : Nat) (overlapPct : ℚ) : Option (List Chunk) :=
  if pyBlank text then some []
  else
    let tokens := encode text
    if tokens.length ≤ maxTokens then some [⟨text, tokens.length⟩]
    else
      chunkLoop decode tokens maxTokens
        (pyInt ((maxTokens : ℚ) * overlapPct)).toNat tokens.length 0

theorem chunkLoop_token_cap (decode : List Nat → String) (tokens : List Nat)
    (maxTokens overlapTokens : Nat) :
    ∀ fuel start l,
      chunkLoop decode tokens maxTokens overlapTokens fuel start = some l →
      ∀ c ∈ l, c.token_count ≤ maxTokens := by
  intro fuel
  induction fuel with
  | zero =>
    intro start l h c hc
    unfold chunkLoop at h
    by_cases hs : start < tokens.length
    · rw [if_pos hs] at h
      cases h
    · rw [if_neg hs] at h
      cases h
      cases hc
  | succ fuel ih =>
    intro start l h c hc
    unfold chunkLoop at h
    by_cases hs : start < tokens.length
    · rw [if_pos hs] at h
      simp only at h
      by_cases he : min (start + maxTokens) tokens.length < tokens.length
      · rw [if_pos he] at h
        rcases Option.map_eq_some'.mp h with ⟨rest, hrest, hl⟩
        subst hl
        rcases List.mem_cons.mp hc with rfl | hc'
        · simp only [List.length_take]
          exact min_le_left _ _
        · exact ih _ rest hrest c hc'
      · rw [if_neg he] at h
        cases h
        rcases List.mem_singleton.mp hc with rfl
        simp only [List.length_take]
        exact min_le_left _ _
    · rw [if_neg hs] at h
      cases h
      cases hc

theorem chunkLoop_total (decode : List Nat → String) (tokens : List Nat)
    (maxTokens overlapTokens : Nat) (hov : overlapTokens < maxTokens) :
    ∀ fuel start, tokens.length - start ≤ fuel →
      ∃ l, chunkLoop decode tokens maxTokens overlapTokens fuel start = some l := by
  intro fuel
  induction fuel with
  | zero =>
    intro start hfuel
    have hs : ¬ start < tokens.length := by omega
    exact ⟨[], by unfold chunkLoop; rw [if_neg hs]⟩
  | succ fuel ih =>
    intro start hfuel
    by_cases hs : start < tokens.length
    · by_cases he : min (start + maxTokens) tokens.length < tokens.length
      · have hmin : min (start + maxTokens) tokens.length = start + maxTokens := by
          omega
        have hstep : tokens.length -
            (min (start + maxTokens) tokens.length - overlapTokens) ≤ fuel := by
          omega
        rcases ih (min (start + maxTokens) tokens.length - overlapTokens) hstep
          with ⟨l, hl⟩
        refine ⟨⟨decode ((tokens.drop start).take maxTokens),
          ((tokens.drop start).take maxTokens).length⟩ :: l, ?_⟩
        unfold chunkLoop
        rw [if_pos hs]
        simp only
        rw [if_pos he, hl]
        rfl
      · refine ⟨[⟨decode ((tokens.drop start).take maxTokens),
          ((tokens.drop start).take maxTokens).length⟩], ?_⟩
        unfold chunkLoop
        rw [if_pos hs]
        simp only
        rw [if_neg he]
    · exact ⟨[], by unfold chunkLoop; rw [if_neg hs]⟩

theorem chunkLoop_stuck (decode : List Nat → String) (tokens : List Nat)
    (maxTokens overlapTokens : Nat) (hov : maxTokens ≤ overlapTokens)
    (hlen : maxTokens < tokens.length) :
    ∀ fuel, chunkLoop decode tokens maxTokens overlapTokens fuel 0 = none := by
  intro fuel
  induction fuel with
  | zero =>
    unfold chunkLoop
    rw [if_pos (by omega)]
  | succ fuel ih =>
    unfold chunkLoop
    rw [if_pos (by omega)]
    simp only
    have hmin : min (0 + maxTokens) tokens.length = maxTokens := by omega
    rw [if_pos (by omega), hmin]
    have hzero : maxTokens - overlapTokens = 0 := by omega
    rw [hzero, ih]
    rfl

theorem overlap_lt_max (m : Nat) (p : ℚ) (hm : 1 ≤ m) (hp0 : 0 ≤ p)
    (hp1 : p < 1) : (pyInt ((m : ℚ) * p)).toNat < m := by
  have hq0 : (0 : ℚ) ≤ (m : ℚ) * p :=
    mul_nonneg (by positivity) hp0
  have hpy : pyInt ((m : ℚ) * p) = ⌊(m : ℚ) * p⌋ := by
    unfold pyInt
    rw [if_neg (by linarith)]
  have hmpos : (0 : ℚ) < (m : ℚ) := by
    have : (1 : ℚ) ≤ (m : ℚ) := by exact_mod_cast hm
    linarith
  have hlt : (m : ℚ) * p < (m : ℚ) := by
    calc (m : ℚ) * p < (m : ℚ) * 1 := by
          exact mul_lt_mul_of_pos_left hp1 hmpos
      _ = (m : ℚ) := mul_one _
  have hfl : ⌊(m : ℚ) * p⌋ < (m : ℤ) := by
    rw [Int.floor_lt]
    push_cast
    exact hlt
  have hfl0 : (0 : ℤ) ≤ ⌊(m : ℚ) * p⌋ := Int.floor_nonneg.mpr hq0
  rw [hpy]
  omega

/-- C5: `chunk_text` returns the empty sequence for empty or all-whitespace
input; returns the input verbatim as a single chunk carrying its true token
count when it tokenizes to at most `max_tokens` tokens; always terminates at
the default `overlap_pct = 0.15`; and never returns a chunk whose
`token_count` exceeds `max_tokens`. -/
theorem chunk_text_bounds (encode : String → List Nat)
    (decode : List Nat → String) (text : String) (m : Nat) (hm : 1 ≤ m) :
    (text.data.all Char.isWhitespace = true →
      chunk_text encode decode text m (15 / 100) = some []) ∧
    (¬ text.data.all Char.isWhitespace = true → (encode text).length ≤ m →
      chunk_text encode decode text m (15 / 100) =
        some [⟨text, (encode text).length⟩]) ∧
    (∃ l, chunk_text encode decode text m (15 / 100) = some l) ∧
    (∀ l, chunk_text encode decode text m (15 / 100) = some l →
      ∀ c ∈ l, c.token_count ≤ m) := by
  refine ⟨?_, ?_, ?_, ?_⟩
  · intro h
    unfold chunk_text
    rw [if_pos ((pyBlank_iff text).mpr h)]
  · intro hws hlen
    have hbl : ¬ pyBlank text = true := fun hc => hws ((pyBlank_iff text).mp hc)
    unfold chunk_text
    rw [if_neg hbl]
    simp only
    rw [if_pos hlen]
  · by_cases hbl : pyBlank text = true
    · exact ⟨[], by unfold chunk_text; rw [if_pos hbl]⟩
    · by_cases hlen : (encode text).length ≤ m
      · refine ⟨[⟨text, (encode text).length⟩], ?_⟩
        unfold chunk_text
        rw [if_neg hbl]
        simp only
        rw [if_pos hlen]
      · have hov := overlap_lt_max m (15 / 100) hm (by norm_num) (by norm_num)
        rcases chunkLoop_total decode (encode text) m
          (pyInt ((m : ℚ) * (15 / 100))).toNat hov (encode text).length 0
          (by omega) with ⟨l, hl⟩
        refine ⟨l, ?_⟩
        unfold chunk_text
        rw [if_neg hbl]
        simp only
        rw [if_neg hlen]
        exact hl
  · intro l hl c hc
    unfold chunk_text at hl
    by_cases hbl : pyBlank text = true
    · rw [if_pos hbl] at hl
      cases hl
      cases hc
    · rw [if_neg hbl] at hl
      simp only at hl
      by_cases hlen : (encode text).length ≤ m
      · rw [if_pos hlen] at hl
        cases hl
        rcases List.mem_singleton.mp hc with rfl
        exact hlen
      · rw [if_neg hlen] at hl
        exact chunkLoop_token_cap decode (encode text) m _ _ 0 l hl c hc

/-- C10: `chunk_text` terminates for every `0 ≤ overlap_pct < 1` because the
window start advances by `max_tokens - floor(max_tokens * overlap_pct) ≥ 1`
per iteration; and when `floor(max_tokens * overlap_pct) ≥ max_tokens` the
window start does not advance, so the loop never terminates on any input
longer than `max_tokens` tokens (no fuel suffices). -/
theorem chunk_text_termination (encode : String → List Nat)
    (decode : List Nat → String) (text : String) (m : Nat) (p : ℚ)
    (hm : 1 ≤ m) :
    (0 ≤ p → p < 1 → ∃ l, chunk_text encode decode text m p = some l) ∧
    (m ≤ (pyInt ((m : ℚ) * p)).toNat → m < (encode text).length →
      pyBlank text = false →
      chunk_text encode decode text m p = none ∧
      ∀ fuel,
        chunkLoop decode (encode text) m (pyInt ((m : ℚ) * p)).toNat fuel 0 =
          none) := by
  constructor
  · intro hp0 hp1
    by_cases hbl : pyBlank text = true
    · exact ⟨[], by unfold chunk_text; rw [if_pos hbl]⟩
    · by_cases hlen : (encode text).length ≤ m
      · refine ⟨[⟨text, (encode text).length⟩], ?_⟩
        unfold chunk_text
        rw [if_neg hbl]
        simp only
        rw [if_pos hlen]
      · have hov := overlap_lt_max m p hm hp0 hp1
        rcases chunkLoop_total decode (encode text) m
          (pyInt ((m : ℚ) * p)).toNat hov (encode text).length 0
          (by omega) with ⟨l, hl⟩
        refine ⟨l, ?_⟩
        unfold chunk_text
        rw [if_neg hbl]
        simp only
        rw [if_neg hlen]
        exact hl
  · intro hov hlen hbl
    have hstuck := chunkLoop_stuck decode (encode text) m
      (pyInt ((m : ℚ) * p)).toNat hov hlen
    constructor
    · unfold chunk_text
      rw [if_neg (by rw [hbl]; exact Bool.false_ne_true)]
      simp only
      rw [if_neg (by omega)]
      exact hstuck (encode text).length
    · exact hstuck

/-- A toy tokenizer for the chunker witnesses: one token per character. -/
def encodeFixture : String → List Nat := fun s => s.data.map Char.toNat

/-- The matching toy detokenizer. -/
def decodeFixture : List Nat → String := fun l => String.mk (l.map Char.ofNat)

/-- Witness for C5 at a concrete input that fits in one chunk. -/
theorem chunk_text_bounds_witness :
    chunk_text encodeFixture decodeFixture "hello" 5 (15 / 100) =
      some [⟨"hello", (encodeFixture "hello").length⟩] ∧
    (∀ l, chunk_text encodeFixture decodeFixture "hello" 5 (15 / 100) = some l →
      ∀ c ∈ l, c.token_count ≤ 5) := by
  have h := chunk_text_bounds encodeFixture decodeFixture "hello" 5 (by norm_num)
  exact ⟨h.2.1 (by decide) (by decide), h.2.2.2⟩

/-- Witness for C10: at `overlap_pct = 1/2` the chunker terminates on "ab"
with one-token windows; at `overlap_pct = 1` it diverges. -/
theorem chunk_text_termination_witness :
    (∃ l, chunk_text encodeFixture decodeFixture "ab" 1 (1 / 2) = some l) ∧
    chunk_text encodeFixture decodeFixture "ab" 1 1 = none := by
  have h1 := chunk_text_termination encodeFixture decodeFixture "ab" 1 (1 / 2)
    (le_refl 1)
  have h2 := chunk_text_termination encodeFixture decodeFixture "ab" 1 1
    (le_refl 1)
  refine ⟨h1.1 (by norm_num) (by norm_num), ?_⟩
  exact (h2.2 (by norm_num [pyInt]) (by decide) (by decide)).1

/-- Python slicing `s[:n]` on code points. -/
def pyTake (n : Nat) (s : String) : String := String.mk (s.data.take n)

/-- Truncation with a trailing ellipsis when the text exceeds `n` characters
(the `text[:n] + "..."` pattern of `_generate_fallback_answer`). -/
def truncEllipsis (n : Nat) (s : String) : String :=
  if n < s.length then pyTake n s ++ "..." else s

/-- `_generate_fallback_answer(search_results, question)` from
src/api/app/main.py: the pure fallback used when no generation backend is
available. -/
def generate_fallback_answer (search_results : List FusedResult)
    (question : String) : String :=
  match search_results with
  | [] => "Not found in your files."
  | [r] =>
    if 1000 < r.metadata.text.length then
      "Based on your files: " ++ pyTake 1000 r.metadata.text ++ "..."
    else
      "Based on your files: " ++ r.metadata.text
  | _ =>
    let combined := ((search_results.take 3).foldl
      (fun (acc : String × Nat) r =>
        (acc.1 ++ "Result " ++ toString (acc.2 + 1) ++ ": " ++
          (if 300 < r.metadata.text.length then
            pyTake 300 r.metadata.text ++ "..."
          else r.metadata.text) ++ "\n\n", acc.2 + 1))
      ("", 0)).1
    if 1500 < combined.length then
      "Based on your files:\n\n" ++ (pyTake 1500 combined ++ "...")
    else
      "Based on your files:\n\n" ++ combined

/-- Rendering described by the spec for the multi-result fallback: numbered
`Result N:` blocks, each truncated to 300 characters and followed by a blank
line. -/
def renderBlocks : Nat → List FusedResult → String
  | _, [] => ""
  | i, r :: rs =>
    "Result " ++ toString (i + 1) ++ ": " ++ truncEllipsis 300 r.metadata.text ++
      "\n\n" ++ renderBlocks (i + 1) rs

theorem fallback_foldl_renders (l : List FusedResult) :
    ∀ (acc : String) (i : Nat),
      ((l.foldl (fun (acc : String × Nat) r =>
        (acc.1 ++ "Result " ++ toString (acc.2 + 1) ++ ": " ++
          (if 300 < r.metadata.text.length then
            pyTake 300 r.metadata.text ++ "..."
          else r.metadata.text) ++ "\n\n", acc.2 + 1))
        (acc, i)).1) = acc ++ renderBlocks i l := by
  induction l with
  | nil =>
    intro acc i
    rw [List.foldl_nil, renderBlocks, String.append_empty]
  | cons r rs ih =>
    intro acc i
    rw [List.foldl_cons, ih, renderBlocks]
    unfold truncEllipsis
    by_cases h : 300 < r.metadata.text.length
    · simp only [if_pos h, String.append_assoc]
    · simp only [if_neg h, String.append_assoc]

/-- C8: the fallback answerer renders exactly one result as
`"Based on your files: "` plus the text truncated to 1000 characters with a
trailing ellipsis when longer; and several results as
`"Based on your files:"` plus a blank line plus the top-3 `Result N:` blocks
(each text truncated to 300 characters), the combined block truncated to 1500
characters with a trailing ellipsis when longer. It is a total function, so
it never raises. -/
theorem fallback_answer_spec (results : List FusedResult) (q : String) :
    (∀ r, results = [r] →
      generate_fallback_answer results q =
        "Based on your files: " ++ truncEllipsis 1000 r.metadata.text) ∧
    (2 ≤ results.length →
      generate_fallback_answer results q =
        "Based on your files:\n\n" ++
          truncEllipsis 1500 (renderBlocks 0 (results.take 3))) := by
  constructor
  · intro r hr
    subst hr
    have hdef : generate_fallback_answer [r] q =
        if 1000 < r.metadata.text.length then
          "Based on your files: " ++ pyTake 1000 r.metadata.text ++ "..."
        else "Based on your files: " ++ r.metadata.text := rfl
    rw [hdef]
    unfold truncEllipsis
    by_cases h : 1000 < r.metadata.text.length
    · simp only [if_pos h, String.append_assoc]
    · simp only [if_neg h]
  · intro hlen
    match results, hlen with
    | a :: b :: t, _ =>
      have hdef : generate_fallback_answer (a :: b :: t) q =
          (if 1500 < (((a :: b :: t).take 3).foldl
              (fun (acc : String × Nat) r =>
                (acc.1 ++ "Result " ++ toString (acc.2 + 1) ++ ": " ++
                  (if 300 < r.metadata.text.length then
                    pyTake 300 r.metadata.text ++ "..."
                  else r.metadata.text) ++ "\n\n", acc.2 + 1))
              ("", 0)).1.length then
            "Based on your files:\n\n" ++
              (pyTake 1500 (((a :: b :: t).take 3).foldl
                (fun (acc : String × Nat) r =>
                  (acc.1 ++ "Result " ++ toString (acc.2 + 1) ++ ": " ++
                    (if 300 < r.metadata.text.length then
                      pyTake 300 r.metadata.text ++ "..."
                    else r.metadata.text) ++ "\n\n", acc.2 + 1))
                ("", 0)).1 ++ "...")
          else
            "Based on your files:\n\n" ++ (((a :: b :: t).take 3).foldl
              (fun (acc : String × Nat) r =>
                (acc.1 ++ "Result " ++ toString (acc.2 + 1) ++ ": " ++
                  (if 300 < r.metadata.text.length then
                    pyTake 300 r.metadata.text ++ "..."
                  else r.metadata.text) ++ "\n\n", acc.2 + 1))
              ("", 0)).1) := rfl
      rw [hdef, fallback_foldl_renders ((a :: b :: t).take 3) "" 0,
        String.empty_append]
      unfold truncEllipsis
      by_cases h : 1500 < (renderBlocks 0 ((a :: b :: t).take 3)).length
      · simp only [if_pos h]
      · simp only [if_neg h]

/-- Witness for C8: a concrete two-result list rendered as two blocks. -/
theorem fallback_answer_spec_witness :
    generate_fallback_answer [⟨7 / 10, metaA, 1, 0⟩, ⟨3 / 5, metaB, 0, 2⟩] "q" =
      "Based on your files:\n\n" ++
        truncEllipsis 1500
          (renderBlocks 0
            ([⟨7 / 10, metaA, 1, 0⟩, ⟨3 / 5, metaB, 0, 2⟩].take 3)) :=
  (fallback_answer_spec [⟨7 / 10, metaA, 1, 0⟩, ⟨3 / 5, metaB, 0, 2⟩] "q").2
    (by norm_num)

/-- Outcome of one `subprocess.run` invocation in `get_git_info`:
success with stdout, a non-zero exit (`check=False`, no exception), a
timeout (`subprocess.TimeoutExpired`, a `SubprocessError`), or an OS-level
failure such as a missing `git` executable. -/
inductive CmdOutcome where
  | ok (stdout : String)
  | exitNonzero
  | timeout
  | oserr
deriving DecidableEq, Repr

/-- The five git commands' outcomes, in the order `get_git_info` runs them:
branch, short hash, full hash, commit date, status (uncommitted changes). -/
structure GitEnv where
  branchCmd : CmdOutcome
  shortCmd : CmdOutcome
  fullCmd : CmdOutcome
  dateCmd : CmdOutcome
  statusCmd : CmdOutcome
deriving DecidableEq, Repr

/-- The dictionary `get_git_info` builds. -/
structure GitInfo where
  branch : String
  commit : String
  commit_full : String
  commit_date : String
  uncommitted_changes : Bool
deriving DecidableEq, Repr

/-- The defaults `get_git_info` starts from. -/
def defaultGitInfo : GitInfo := ⟨"unknown", "unknown", "unknown", "unknown", false⟩

/-- Whether an outcome raises out of `subprocess.run` (timeouts raise
`TimeoutExpired ⊆ SubprocessError`; OS failures raise `OSError`): both are
caught by the single `except` wrapping all five commands. -/
def aborts : CmdOutcome → Bool
  | .timeout => true
  | .oserr => true
  | _ => false

/-- Run one command inside the shared `try` block: on success assign the
field from the stripped stdout, on a non-zero exit leave the dict unchanged,
on a raising outcome return `none` (control jumps to the `except`). -/
def runGitCmd (c : CmdOutcome) (assign : GitInfo → String → GitInfo)
    (g : GitInfo) : Option GitInfo :=
  match c with
  | .ok out => some (assign g (String.mk (pyStrip out.data)))
  | .exitNonzero => some g
  | .timeout => none
  | .oserr => none

/-- `get_git_info()` from src/api/app/main.py: five sequential commands
inside one `try`; the `except (OSError, SubprocessError, FileNotFoundError)`
clause swallows the exception and the partially-filled dict is returned. -/
def get_git_info (env : GitEnv) : GitInfo :=
  let g0 := defaultGitInfo
  match runGitCmd env.branchCmd (fun g s => { g with branch := s }) g0 with
  | none => g0
  | some g1 =>
    match runGitCmd env.shortCmd (fun g s => { g with commit := s }) g1 with
    | none => g1
    | some g2 =>
      match runGitCmd env.fullCmd (fun g s => { g with commit_full := s }) g2 with
      | none => g2
      | some g3 =>
        match runGitCmd env.dateCmd (fun g s => { g with commit_date := s }) g3 with
        | none => g3
        | some g4 =>
          match runGitCmd env.statusCmd
              (fun g s => { g with uncommitted_changes := s ≠ "" }) g4 with
          | none => g4
          | some g5 => g5

/-- C4 counterexample: when the short-hash command times out while every
other command would succeed, the full-hash, date and status commands are
never executed — their fields stay at defaults — contradicting the claim
that a timeout leaves only the timed-out command's field at its default
while the remaining commands still run. -/
theorem git_info_timeout_counterexample :
    get_git_info ⟨.ok "main\n", .timeout, .ok "deadbeef\n", .ok "2024-01-01\n",
        .ok "M x\n"⟩ =
      ⟨"main", "unknown", "unknown", "unknown", false⟩ ∧
    (get_git_info ⟨.ok "main\n", .timeout, .ok "deadbeef\n", .ok "2024-01-01\n",
        .ok "M x\n"⟩).commit_full ≠ "deadbeef" := by
  exact ⟨rfl, by decide⟩

/-- The string a successful/non-zero command leaves in a field that defaults
to `d`. -/
def fieldVal (c : CmdOutcome) (d : String) : String :=
  match c with
  | .ok out => String.mk (pyStrip out.data)
  | _ => d

/-- The boolean the status command leaves in `uncommitted_changes`. -/
def boolVal (c : CmdOutcome) : Bool :=
  match c with
  | .ok out => String.mk (pyStrip out.data) ≠ ""
  | _ => false

theorem nonabort_cases (c : CmdOutcome) (h : aborts c = false) :
    (∃ s, c = CmdOutcome.ok s) ∨ c = CmdOutcome.exitNonzero := by
  cases c with
  | ok s => exact Or.inl ⟨s, rfl⟩
  | exitNonzero => exact Or.inr rfl
  | timeout => cases h
  | oserr => cases h

theorem abort_cases (c : CmdOutcome) (h : aborts c = true) :
    c = CmdOutcome.timeout ∨ c = CmdOutcome.oserr := by
  cases c with
  | ok s => cases h
  | exitNonzero => cases h
  | timeout => exact Or.inl rfl
  | oserr => exact Or.inr rfl

/-- C4 amended: a non-zero exit is indeed independent — it leaves only its
own field at the default and the remaining commands still run — but a
timeout (like an OS-level failure) aborts the whole `try` block: the
timed-out command's field and every later command's field stay at their
defaults, while fields already assigned are kept. A raising first command
(e.g. a missing git executable) yields the all-defaults result. -/
theorem git_info_amended (env : GitEnv) :
    (aborts env.branchCmd = false → aborts env.shortCmd = false →
      aborts env.fullCmd = false → aborts env.dateCmd = false →
      aborts env.statusCmd = false →
      get_git_info env =
        ⟨fieldVal env.branchCmd "unknown", fieldVal env.shortCmd "unknown",
          fieldVal env.fullCmd "unknown", fieldVal env.dateCmd "unknown",
          boolVal env.statusCmd⟩) ∧
    (aborts env.branchCmd = true → get_git_info env = defaultGitInfo) ∧
    (aborts env.branchCmd = false → aborts env.shortCmd = true →
      get_git_info env =
        { defaultGitInfo with branch := fieldVal env.branchCmd "unknown" }) ∧
    (aborts env.branchCmd = false → aborts env.shortCmd = false →
      aborts env.fullCmd = true →
      get_git_info env =
        { defaultGitInfo with
          branch := fieldVal env.branchCmd "unknown"
          commit := fieldVal env.shortCmd "unknown" }) ∧
    (aborts env.branchCmd = false → aborts env.shortCmd = false →
      aborts env.fullCmd = false → aborts env.dateCmd = true →
      get_git_info env =
        { defaultGitInfo with
          branch := fieldVal env.branchCmd "unknown"
          commit := fieldVal env.shortCmd "unknown"
          commit_full := fieldVal env.fullCmd "unknown" }) ∧
    (aborts env.branchCmd = false → aborts env.shortCmd = false →
      aborts env.fullCmd = false → aborts env.dateCmd = false →
      aborts env.statusCmd = true →
      get_git_info env =
        { defaultGitInfo with
          branch := fieldVal env.branchCmd "unknown"
          commit := fieldVal env.shortCmd "unknown"
          commit_full := fieldVal env.fullCmd "unknown"
          commit_date := fieldVal env.dateCmd "unknown" }) := by
  rcases env with ⟨c1, c2, c3, c4, c5⟩
  refine ⟨?_, ?_, ?_, ?_, ?_, ?_⟩
  · intro h1 h2 h3 h4 h5
    rcases nonabort_cases c1 h1 with ⟨s1, rfl⟩ | rfl <;>
      rcases nonabort_cases c2 h2 with ⟨s2, rfl⟩ | rfl <;>
        rcases nonabort_cases c3 h3 with ⟨s3, rfl⟩ | rfl <;>
          rcases nonabort_cases c4 h4 with ⟨s4, rfl⟩ | rfl <;>
            rcases nonabort_cases c5 h5 with ⟨s5, rfl⟩ | rfl <;> rfl
  · intro h1
    rcases abort_cases c1 h1 with rfl | rfl <;> rfl
  · intro h1 h2
    rcases nonabort_cases c1 h1 with ⟨s1, rfl⟩ | rfl <;>
      rcases abort_cases c2 h2 with rfl | rfl <;> rfl
  · intro h1 h2 h3
    rcases nonabort_cases c1 h1 with ⟨s1, rfl⟩ | rfl <;>
      rcases nonabort_cases c2 h2 with ⟨s2, rfl⟩ | rfl <;>
        rcases abort_cases c3 h3 with rfl | rfl <;> rfl
  · intro h1 h2 h3 h4
    rcases nonabort_cases c1 h1 with ⟨s1, rfl⟩ | rfl <;>
      rcases nonabort_cases c2 h2 with ⟨s2, rfl⟩ | rfl <;>
        rcases nonabort_cases c3 h3 with ⟨s3, rfl⟩ | rfl <;>
          rcases abort_cases c4 h4 with rfl | rfl <;> rfl
  · intro h1 h2 h3 h4 h5
    rcases nonabort_cases c1 h1 with ⟨s1, rfl⟩ | rfl <;>
      rcases nonabort_cases c2 h2 with ⟨s2, rfl⟩ | rfl <;>
        rcases nonabort_cases c3 h3 with ⟨s3, rfl⟩ | rfl <;>
          rcases nonabort_cases c4 h4 with ⟨s4, rfl⟩ | rfl <;>
            rcases abort_cases c5 h5 with rfl | rfl <;> rfl

/-- Witness for C4's amended theorem: branch succeeds, the short-hash command
exits non-zero, the rest succeed — only the short-hash field stays default. -/
theorem git_info_amended_witness :
    get_git_info ⟨CmdOutcome.ok "main\n", CmdOutcome.exitNonzero,
        CmdOutcome.ok "deadbeef\n", CmdOutcome.ok "2024-01-01\n",
        CmdOutcome.ok ""⟩ =
      ⟨fieldVal (CmdOutcome.ok "main\n") "unknown",
        fieldVal CmdOutcome.exitNonzero "unknown",
        fieldVal (CmdOutcome.ok "deadbeef\n") "unknown",
        fieldVal (CmdOutcome.ok "2024-01-01\n") "unknown",
        boolVal (CmdOutcome.ok "")⟩ :=
  (git_info_amended ⟨CmdOutcome.ok "main\n", CmdOutcome.exitNonzero,
    CmdOutcome.ok "deadbeef\n", CmdOutcome.ok "2024-01-01\n",
    CmdOutcome.ok ""⟩).1 rfl rfl rfl rfl rfl

/-- An HTTP error as raised by `HTTPException(status_code, detail)`. -/
structure HttpError where
  status : Nat
  detail : String
deriving DecidableEq, Repr

/-- A parsed PDF: per-page extracted text, `none` modelling a page whose
text extraction raises (treated as empty text by the validator). -/
structure PdfDoc where
  pages : List (Option String)
deriving DecidableEq, Repr

/-- An uploaded file: its name, its byte size, and its parse result
(`none` = `PdfReader` raises, i.e. not a valid PDF). -/
structure UploadedFile where
  filename : String
  size : Nat
  pdf : Option PdfDoc
deriving DecidableEq, Repr

/-- Upload limits from src/api/app/main.py. -/
def MAX_FILES_PER_SESSION : Nat := 10

/-- Total-size limit (100 MiB). -/
def MAX_TOTAL_BYTES : Nat := 100 * 1024 * 1024

/-- Single-file size limit (50 MiB). -/
def MAX_FILE_BYTES : Nat := 50 * 1024 * 1024

/-- Page-count limit per PDF. -/
def MAX_PAGES_PER_PDF : Nat := 500

/-- Per-page text extraction as the validator sees it: a raising page yields
the empty string. -/
def extractText (p : Option String) : String := p.getD ""

/-- `validate_pdf_file(name, data)` from src/api/app/main.py: `some e` is the
`HTTPException` raised, `none` means the file passes. Checks, in order:
parseability, the 500-page cap, and non-whitespace text in the first
`min(pages, 3)` pages. -/
def validate_pdf_file (name : String) (pdf : Option PdfDoc) : Option HttpError :=
  match pdf with
  | none => some ⟨400, name ++ " is not a valid PDF"⟩
  | some d =>
    if MAX_PAGES_PER_PDF < d.pages.length then
      some ⟨400, name ++ " exceeds 500 pages"⟩
    else if (d.pages.take 3).any
        (fun p => ! (pyStrip (extractText p).data).isEmpty) then
      none
    else
      some ⟨400, name ++ " appears scanned/unsearchable (no text layer)"⟩

/-- One session's status record (`SESSION_STATUS[session_id]`). -/
structure SessionRecord where
  status : String
  total_files : Nat
  files_indexed : Nat
deriving DecidableEq, Repr

/-- The process-wide session store: the `SESSION_STATUS` and
`SESSION_RETRIEVERS` maps (a retriever is its vector entries and keyword
documents; a fresh one is empty). -/
structure ApiState where
  sessionStatus : List (String × SessionRecord)
  sessionRetrievers : List (String × (List Scored × List ChunkMeta))
deriving DecidableEq, Repr

/-- The JSON body a successful upload returns. -/
structure UploadResponse where
  session_id : String
  status : String
  total_files : Nat
  files_indexed : Nat
  total_bytes : Nat
deriving DecidableEq, Repr

/-- The read loop of `upload_files`: reads each file, rejects the first file
over 50 MiB, accumulates the total byte count. -/
def readFilesLoop : List UploadedFile → Nat → Except HttpError Nat
  | [], total => Except.ok total
  | f :: fs, total =>
    if MAX_FILE_BYTES < f.size then
      Except.error ⟨400, "File " ++ f.filename ++ " exceeds 50 MB limit"⟩
    else readFilesLoop fs (total + f.size)

/-- The validation loop of `upload_files`: the first failing file's
exception, if any. -/
def validateAll : List UploadedFile → Option HttpError
  | [] => none
  | f :: fs =>
    match validate_pdf_file f.filename f.pdf with
    | some e => some e
    | none => validateAll fs


/-- The validation phase of `upload_files`, in source order: empty check,
file-count check, per-file read with the 50 MiB check, the 100 MiB total
check, then PDF validation over every file. Returns the total byte count on
success. -/
def uploadCheck (files : List UploadedFile) : Except HttpError Nat :=
  if files.isEmpty then Except.error ⟨400, "No files uploaded"⟩
  else if MAX_FILES_PER_SESSION < files.length then
    Except.error ⟨400, "Too many files (>10)"⟩
  else
    match readFilesLoop files 0 with
    | Except.error e => Except.error e
    | Except.ok total =>
      if MAX_TOTAL_BYTES < total then
        Except.error ⟨400, "Total upload size exceeds 100 MB"⟩
      else
        match validateAll files with
        | some e => Except.error e
        | none => Except.ok total

/-- `upload_files` from src/api/app/main.py as a state transformer: only
after every check passes are the session record and a fresh retriever stored
(and the background task scheduled); any rejection leaves the store
untouched. -/
def upload_files (st : ApiState) (sessionId : String)
    (files : List UploadedFile) : ApiState × Except HttpError UploadResponse :=
  match uploadCheck files with
  | Except.error e => (st, Except.error e)
  | Except.ok total =>
    ({ sessionStatus :=
        st.sessionStatus ++ [(sessionId, ⟨"indexing", files.length, 0⟩)]
       sessionRetrievers :=
        st.sessionRetrievers ++ [(sessionId, ([], []))] },
     Except.ok ⟨sessionId, "indexing", files.length, 0, total⟩)

theorem readFilesLoop_ok (files : List UploadedFile) :
    ∀ t total, readFilesLoop files t = Except.ok total →
      (∀ f ∈ files, f.size ≤ MAX_FILE_BYTES) ∧
      total = t + (files.map UploadedFile.size).sum := by
  induction files with
  | nil =>
    intro t total h
    cases h
    exact ⟨fun f hf => absurd hf (List.not_mem_nil f), by simp⟩
  | cons f fs ih =>
    intro t total h
    unfold readFilesLoop at h
    by_cases hf : MAX_FILE_BYTES < f.size
    · rw [if_pos hf] at h
      cases h
    · rw [if_neg hf] at h
      rcases ih (t + f.size) total h with ⟨hall, hsum⟩
      refine ⟨?_, ?_⟩
      · intro g hg
        rcases List.mem_cons.mp hg with rfl | hg'
        · omega
        · exact hall g hg'
      · rw [hsum, List.map_cons, List.sum_cons]
        omega

theorem readFilesLoop_err (files : List UploadedFile) :
    ∀ t e, readFilesLoop files t = Except.error e → e.status = 400 := by
  induction files with
  | nil =>
    intro t e h
    cases h
  | cons f fs ih =>
    intro t e h
    unfold readFilesLoop at h
    by_cases hf : MAX_FILE_BYTES < f.size
    · rw [if_pos hf] at h
      cases h
      rfl
    · rw [if_neg hf] at h
      exact ih (t + f.size) e h

theorem validate_pdf_status (name : String) (pdf : Option PdfDoc) (e : HttpError)
    (h : validate_pdf_file name pdf = some e) : e.status = 400 := by
  unfold validate_pdf_file at h
  match pdf with
  | none => cases h; rfl
  | some d =>
    simp only at h
    by_cases h1 : MAX_PAGES_PER_PDF < d.pages.length
    · rw [if_pos h1] at h
      cases h
      rfl
    · rw [if_neg h1] at h
      by_cases h2 : (d.pages.take 3).any
          (fun p => ! (pyStrip (extractText p).data).isEmpty) = true
      · rw [if_pos h2] at h
        cases h
      · rw [if_neg h2] at h
        cases h
        rfl

theorem validateAll_none (files : List UploadedFile)
    (h : validateAll files = none) :
    ∀ f ∈ files, validate_pdf_file f.filename f.pdf = none := by
  induction files with
  | nil =>
    intro f hf
    cases hf
  | cons f fs ih =>
    intro g hg
    unfold validateAll at h
    rcases hv : validate_pdf_file f.filename f.pdf with - | e
    · rw [hv] at h
      rcases List.mem_cons.mp hg with rfl | hg'
      · exact hv
      · exact ih h g hg'
    · rw [hv] at h
      cases h

theorem validateAll_some (files : List UploadedFile) :
    ∀ e, validateAll files = some e → e.status = 400 := by
  induction files with
  | nil =>
    intro e h
    cases h
  | cons f fs ih =>
    intro e h
    unfold validateAll at h
    rcases hv : validate_pdf_file f.filename f.pdf with - | e'
    · rw [hv] at h
      exact ih e h
    · rw [hv] at h
      cases h
      exact validate_pdf_status f.filename f.pdf e hv

theorem uploadCheck_err (files : List UploadedFile) (e : HttpError)
    (h : uploadCheck files = Except.error e) : e.status = 400 := by
  unfold uploadCheck at h
  split at h
  · cases h
    rfl
  · split at h
    · cases h
      rfl
    · split at h
      · cases h
        next heq => exact readFilesLoop_err files 0 e heq
      · split at h
        · cases h
          rfl
        · split at h
          · cases h
            next heq => exact validateAll_some files e heq
          · cases h

theorem uploadCheck_ok (files : List UploadedFile) (total : Nat)
    (h : uploadCheck files = Except.ok total) :
    files ≠ [] ∧ files.length ≤ MAX_FILES_PER_SESSION ∧
    (∀ f ∈ files, f.size ≤ MAX_FILE_BYTES) ∧
    (files.map UploadedFile.size).sum ≤ MAX_TOTAL_BYTES ∧
    (∀ f ∈ files, validate_pdf_file f.filename f.pdf = none) := by
  unfold uploadCheck at h
  split at h
  · cases h
  · rename_i hempty
    split at h
    · cases h
    · rename_i hcount
      split at h
      · cases h
      · rename_i total' heqread
        split at h
        · cases h
        · rename_i htotal
          split at h
          · cases h
          · rename_i heqval
            cases h
            rcases readFilesLoop_ok files 0 total heqread with ⟨hall, hsum⟩
            refine ⟨fun hc => hempty (by rw [hc]; rfl), by omega, hall, ?_,
              validateAll_none files heqval⟩
            omega

/-- C7: `POST /fastapi/upload` rejects with a 400 error when zero files are
supplied, more than 10 files are supplied, any single file exceeds 50 MiB,
the total size exceeds 100 MiB, or any file fails PDF validation (not
parseable, over 500 pages, or no non-whitespace extractable text in the
first 3 pages); validation runs before any state change, so on any rejection
the session-status and session-retriever maps are unchanged and no session
is created. -/
theorem upload_rejection_spec (st : ApiState) (sid : String)
    (files : List UploadedFile)
    (hbad : files = [] ∨ MAX_FILES_PER_SESSION < files.length ∨
      (∃ f ∈ files, MAX_FILE_BYTES < f.size) ∨
      MAX_TOTAL_BYTES < (files.map UploadedFile.size).sum ∨
      (∃ f ∈ files, validate_pdf_file f.filename f.pdf ≠ none)) :
    (upload_files st sid files).1 = st ∧
    ∃ e, (upload_files st sid files).2 = Except.error e ∧ e.status = 400 := by
  unfold upload_files
  rcases hcheck : uploadCheck files with e | total
  · exact ⟨rfl, e, rfl, uploadCheck_err files e hcheck⟩
  · exfalso
    rcases uploadCheck_ok files total hcheck with
      ⟨hne, hcount, hsize, htotal, hvalid⟩
    rcases hbad with h | h | ⟨f, hf, h⟩ | h | ⟨f, hf, h⟩
    · exact hne h
    · omega
    · exact absurd (hsize f hf) (by omega)
    · omega
    · exact h (hvalid f hf)

/-- Witness for C7: uploading zero files to an empty store is rejected with
status 400 and leaves the store unchanged. -/
theorem upload_rejection_spec_witness :
    (upload_files ⟨[], []⟩ "sid" []).1 = ⟨[], []⟩ ∧
    ∃ e, (upload_files ⟨[], []⟩ "sid" []).2 = Except.error e ∧
      e.status = 400 :=
  upload_rejection_spec ⟨[], []⟩ "sid" [] (Or.inl rfl)

/-- Session status values used by the upload handler and background task. -/
inductive SessionStatus where
  | indexing
  | done
  | error (msg : String)
deriving DecidableEq, Repr

/-- One session's mutable state (`SESSION_STATUS[session_id]`). -/
structure SessionState where
  status : SessionStatus
  total_files : Nat
  files_indexed : Nat
deriving DecidableEq, Repr

/-- Steps of `process_pdfs_background` (src/api/app/main.py) on one session's
record: after each file, `files_indexed` is set to `i + 1`; after the last
file the status becomes `"done"`; an exception at any point during the loop
sets status `"error"` with the exception's message (nothing can raise after
`"done"` is set, and nothing else ever mutates the record). -/
inductive BgStep : SessionState → SessionState → Prop where
  | progress (n i : Nat) (h : i < n) :
      BgStep ⟨SessionStatus.indexing, n, i⟩ ⟨SessionStatus.indexing, n, i + 1⟩
  | finish (n : Nat) :
      BgStep ⟨SessionStatus.indexing, n, n⟩ ⟨SessionStatus.done, n, n⟩
  | fail (n i : Nat) (msg : String) (h : i ≤ n) :
      BgStep ⟨SessionStatus.indexing, n, i⟩ ⟨SessionStatus.error msg, n, i⟩

/-- The record the upload handler creates: status `"indexing"`, the committed
file count, zero files indexed. -/
def initSession (n : Nat) : SessionState := ⟨SessionStatus.indexing, n, 0⟩

/-- States reachable from a fresh upload through background-task steps. -/
def ReachableSession (n : Nat) (s : SessionState) : Prop :=
  Relation.ReflTransGen BgStep (initSession n) s

/-- C9: in every reachable session state, `files_indexed ≤ total_files`
(non-negativity is by the natural-number model), `total_files` stays at the
committed count, and `"done"` implies every file was processed; and every
step keeps `files_indexed` non-decreasing, keeps `total_files` unchanged,
and changes the status only from `"indexing"` to `"done"` or from
`"indexing"` to `"error"` (with a recorded message). -/
theorem session_lifecycle_invariant (n : Nat) :
    (∀ s, ReachableSession n s →
      s.files_indexed ≤ s.total_files ∧ s.total_files = n ∧
      (s.status = SessionStatus.done → s.files_indexed = n)) ∧
    (∀ s s', BgStep s s' →
      s.files_indexed ≤ s'.files_indexed ∧ s'.total_files = s.total_files ∧
      (s'.status ≠ s.status →
        s.status = SessionStatus.indexing ∧
        (s'.status = SessionStatus.done ∨
          ∃ m, s'.status = SessionStatus.error m))) := by
  constructor
  · intro s hreach
    induction hreach with
    | refl => exact ⟨Nat.zero_le n, rfl, fun hc => by cases hc⟩
    | tail hsteps hstep ih =>
      cases hstep with
      | progress n' i h =>
        rcases ih with ⟨hle, htot, -⟩
        exact ⟨by simpa using h, htot, fun hc => by cases hc⟩
      | finish n' =>
        rcases ih with ⟨hle, htot, -⟩
        exact ⟨Nat.le_refl n', htot, fun _ => htot⟩
      | fail n' i msg h =>
        rcases ih with ⟨hle, htot, -⟩
        exact ⟨hle, htot, fun hc => by cases hc⟩
  · intro s s' hstep
    cases hstep with
    | progress n' i h =>
      exact ⟨Nat.le_succ i, rfl, fun hne => absurd rfl hne⟩
    | finish n' =>
      exact ⟨Nat.le_refl n', rfl, fun _ => ⟨rfl, Or.inl rfl⟩⟩
    | fail n' i msg h =>
      exact ⟨Nat.le_refl i, rfl, fun _ => ⟨rfl, Or.inr ⟨msg, rfl⟩⟩⟩

/-- Witness for C9: the `"done"` state of a one-file session is reachable and
satisfies the invariant. -/
theorem session_lifecycle_invariant_witness :
    (⟨SessionStatus.done, 1, 1⟩ : SessionState).files_indexed ≤
      (⟨SessionStatus.done, 1, 1⟩ : SessionState).total_files ∧
    (⟨SessionStatus.done, 1, 1⟩ : SessionState).total_files = 1 ∧
    ((⟨SessionStatus.done, 1, 1⟩ : SessionState).status = SessionStatus.done →
      (⟨SessionStatus.done, 1, 1⟩ : SessionState).files_indexed = 1) :=
  (session_lifecycle_invariant 1).1 ⟨SessionStatus.done, 1, 1⟩
    (Relation.ReflTransGen.tail
      (Relation.ReflTransGen.tail Relation.ReflTransGen.refl
        (BgStep.progress 1 0 (by norm_num)))
      (BgStep.finish 1))
